import Mathlib

/-!
Shallow embedding of the intspector numeric engine (`src/lib.rs`, reiterated in
`src/main.rs`) together with proofs about it.

Modelling conventions:
* Rust machine integers are modelled as `Nat` / `Int` with explicit bounds
  (`i64` values carry the hypotheses `-(2^63) ≤ v` and `v < 2^63`, `u64` values
  the hypothesis `v < 2^64`).
* A Rust function that can panic (a failed `assert!`, an `unwrap()` on `None`,
  arithmetic overflow under the checked-arithmetic semantics that `cargo test`
  uses) is modelled as an `Option`-returning function where `none` is the panic.
* The `f64` pipeline inside `min_bits` is modelled exactly at the one place the
  floating-point format matters: the `i64 → f64` cast rounds the integer to 53
  significant bits (round to nearest, ties to even), which `f64round` computes.
  `log2`, `floor` and `ceil` are modelled as exact on the rounded integer
  (`log2floor` and `ceilLog2` below); this is exact for every `|v| < 2^53` and
  at every power of two, in particular at the inputs where divergence from the
  specification is reported.
-/

namespace Intspector

/-- Fuel-driven floor of the base-2 logarithm: `lg2 fuel n` equals
`⌊log2 n⌋` whenever `n < 2 ^ (fuel + 1)` (and `lg2 _ 0 = lg2 _ 1 = 0`).
The fuel makes the definition structurally recursive so that the kernel can
evaluate it inside `decide`. -/
def lg2 : ℕ → ℕ → ℕ
  | 0, _ => 0
  | fuel + 1, n => if n < 2 then 0 else lg2 fuel (n / 2) + 1

/-- Floor of `log2 n`, exact for every `n < 2 ^ 65`; `log2floor 0 = 0`. -/
def log2floor (n : ℕ) : ℕ := lg2 64 n

/-- Ceiling of `log2 n`, exact for every `1 ≤ n ≤ 2 ^ 64`; `ceilLog2 0 = 0`.
For `n ≥ 2` the ceiling of `log2 n` is `⌊log2 (n - 1)⌋ + 1`. -/
def ceilLog2 (n : ℕ) : ℕ := if n ≤ 1 then 0 else log2floor (n - 1) + 1

/-- IEEE-754 rounding of a natural number below `2 ^ 64` to the nearest `f64`
(53 significant bits, round to nearest, ties to even), returned as the exact
natural number the resulting float denotes.  This models Rust's `as f64` cast
on the integers `min_bits` feeds into the float pipeline. -/
def f64round (n : ℕ) : ℕ :=
  if n < 2 ^ 53 then n
  else
    let e := log2floor n - 52
    let q := n / 2 ^ e
    let r := n % 2 ^ e
    if 2 * r < 2 ^ e then q * 2 ^ e
    else if 2 ^ e < 2 * r then (q + 1) * 2 ^ e
    else if q % 2 = 0 then q * 2 ^ e else (q + 1) * 2 ^ e

/-- Model of `min_bits` (`lib.rs:6-14`):

```rust
pub fn min_bits(value: i64) -> u32 {
    if value == 0 { 1 }
    else if value > 0 { (value as f64).log2().floor() as u32 + 1 }
    else { (value.abs() as f64).log2().ceil() as u32 + 1 }
}
```

The cast `value as f64` is modelled by `f64round`; `log2().floor()` and
`log2().ceil()` on the rounded integer are modelled by `log2floor` and
`ceilLog2`.  `value.abs()` overflows `i64` exactly at `i64::MIN`, which is a
panic under checked arithmetic, hence `none` there. -/
def min_bits (value : ℤ) : Option ℕ :=
  if value = 0 then some 1
  else if 0 < value then some (log2floor (f64round value.toNat) + 1)
  else if value = -(2 ^ 63) then none
  else some (ceilLog2 (f64round value.natAbs) + 1)

/-- Model of `std_bits` (`lib.rs:19-27`): round `min_bits` up to the first of
8, 16, 32, 64 that is at least as large, falling through to the raw value. -/
def std_bits (value : ℤ) : Option ℕ :=
  (min_bits value).map fun mb =>
    if mb ≤ 8 then 8
    else if mb ≤ 16 then 16
    else if mb ≤ 32 then 32
    else if mb ≤ 64 then 64
    else mb

/-- Model of `twos_complement` (`lib.rs:74-85`):

```rust
pub fn twos_complement(value: u64, num_bits: u32) -> u64 {
    assert!(num_bits <= 64);
    if value == 0 { return 0; }
    if num_bits < 64 {
        let cap = (2 as u64).pow(num_bits);
        assert!(value < cap);
        return cap - value;
    }
    return (u64::MAX - value) + 1
}
```

A failed `assert!` is a panic, modelled as `none`. -/
def twos_complement (value : ℕ) (numBits : ℕ) : Option ℕ :=
  if 64 < numBits then none
  else if value = 0 then some 0
  else if numBits < 64 then
    if value < 2 ^ numBits then some (2 ^ numBits - value) else none
  else some (2 ^ 64 - 1 - value + 1)

/-! ### Bounds for the log helpers -/

lemma lg2_le {k : ℕ} : ∀ fuel n, n < 2 ^ (k + 1) → lg2 fuel n ≤ k := by
  intro fuel
  induction fuel generalizing k with
  | zero => intro n _; exact Nat.zero_le k
  | succ fuel ih =>
    intro n hn
    unfold lg2
    split
    · exact Nat.zero_le k
    · rename_i h2
      have hk : 1 ≤ k := by
        by_contra hk0
        have : k = 0 := by omega
        subst this
        simp at hn
        omega
      obtain ⟨k', rfl⟩ : ∃ k', k = k' + 1 := ⟨k - 1, by omega⟩
      have hdiv : n / 2 < 2 ^ (k' + 1) := by
        have : n < 2 ^ (k' + 1) * 2 := by
          have : (2 : ℕ) ^ (k' + 1 + 1) = 2 ^ (k' + 1) * 2 := by ring
          omega
        omega
      have := ih (n / 2) hdiv
      omega

lemma log2floor_le {k n : ℕ} (hn : n < 2 ^ (k + 1)) : log2floor n ≤ k :=
  lg2_le 64 n hn

lemma ceilLog2_le {k n : ℕ} (hn : n ≤ 2 ^ (k + 1)) : ceilLog2 n ≤ k + 1 := by
  unfold ceilLog2
  split
  · omega
  · rename_i h1
    have : n - 1 < 2 ^ (k + 1) := by omega
    have := log2floor_le this
    omega

lemma f64round_le {n : ℕ} (hn : n < 2 ^ 63) : f64round n ≤ 2 ^ 63 := by
  unfold f64round
  dsimp only
  split
  · omega
  · rename_i hbig
    have hfloor : log2floor n ≤ 62 := log2floor_le hn
    have he63 : log2floor n - 52 ≤ 63 := by omega
    generalize hE : log2floor n - 52 = e at he63 ⊢
    have hq : n / 2 ^ e * 2 ^ e ≤ n := Nat.div_mul_le_self n (2 ^ e)
    have hpow : (0 : ℕ) < 2 ^ e := Nat.pos_pow_of_pos e (by omega)
    have hmul : 2 ^ (63 - e) * 2 ^ e = 2 ^ 63 := by
      rw [← pow_add]
      congr 1
      omega
    have hqlt : n / 2 ^ e < 2 ^ (63 - e) := by
      have : n / 2 ^ e * 2 ^ e < 2 ^ 63 := lt_of_le_of_lt hq hn
      by_contra hcon
      push_neg at hcon
      have : 2 ^ (63 - e) * 2 ^ e ≤ n / 2 ^ e * 2 ^ e :=
        Nat.mul_le_mul_right _ hcon
      omega
    have hup : (n / 2 ^ e + 1) * 2 ^ e ≤ 2 ^ 63 := by
      have hle : n / 2 ^ e + 1 ≤ 2 ^ (63 - e) := hqlt
      have := Nat.mul_le_mul_right (2 ^ e) hle
      omega
    have hdown : n / 2 ^ e * 2 ^ e ≤ 2 ^ 63 := le_of_lt (lt_of_le_of_lt hq hn)
    split
    · exact hdown
    · split
      · exact hup
      · split
        · exact hdown
        · exact hup

/-- Whenever `min_bits` returns a value for an in-range `i64` input, that value
lies between 1 and 64.  (At `i64::MIN` it returns `none`: the `value.abs()`
call overflows.) -/
lemma min_bits_bounds {v : ℤ} (h1 : -(2 ^ 63) ≤ v) (h2 : v < 2 ^ 63)
    (h3 : v ≠ -(2 ^ 63)) : ∃ mb, min_bits v = some mb ∧ 1 ≤ mb ∧ mb ≤ 64 := by
  unfold min_bits
  by_cases h0 : v = 0
  · subst h0; exact ⟨1, by simp, by omega, by omega⟩
  · by_cases hpos : 0 < v
    · refine ⟨log2floor (f64round v.toNat) + 1, by simp [h0, hpos], by omega, ?_⟩
      have hlt : v.toNat < 2 ^ 63 := by
        have : (v.toNat : ℤ) = v := Int.toNat_of_nonneg (le_of_lt hpos)
        omega
      have hr : f64round v.toNat ≤ 2 ^ 63 := f64round_le hlt
      have : f64round v.toNat < 2 ^ (63 + 1) := by
        have : (2 : ℕ) ^ 63 < 2 ^ 64 := by norm_num
        omega
      have := log2floor_le this
      omega
    · have h3lit : ¬v = -9223372036854775808 := by
        intro hcon
        exact h3 (by rw [hcon]; norm_num)
      refine ⟨ceilLog2 (f64round v.natAbs) + 1, by simp [h0, hpos, h3lit], by omega, ?_⟩
      have hneg : v < 0 := by omega
      have habs : v.natAbs < 2 ^ 63 := by
        have hA : (2 : ℤ) ^ 63 = 9223372036854775808 := by norm_num
        have hB : (2 : ℕ) ^ 63 = 9223372036854775808 := by norm_num
        omega
      have hr : f64round v.natAbs ≤ 2 ^ 63 := f64round_le habs
      have : f64round v.natAbs ≤ 2 ^ (62 + 1) := hr
      have := ceilLog2_le this
      omega

/-! ### Claim C2 -/

/-- Claim C2 (code_bug evidence): the specification's formula
`min_bits(value) = ⌊log2 value⌋ + 1` for positive values fails at
`i64::MAX = 2 ^ 63 - 1`.  The `i64 → f64` cast rounds `2 ^ 63 - 1` up to
`2 ^ 63` (the nearest 53-bit float), and `log2` is exact on that power of two,
so the code returns 64 — yet `2 ^ 63 - 1` needs only 63 unsigned bits, and the
claim's formula `⌊log2 (2 ^ 63 - 1)⌋ + 1` gives 63. -/
theorem claim_C2_min_bits_float_divergence :
    min_bits ((2 : ℤ) ^ 63 - 1) = some 64 ∧ log2floor (2 ^ 63 - 1) + 1 = 63 := by
  constructor
  · decide
  · decide

/-! ### Claim C3 -/

/-- Claim C3 (code_bug evidence): `min_bits` is not total over `i64`.  At
`i64::MIN` the call `value.abs()` overflows (panic under checked arithmetic),
modelled as `none`; for every other in-range input the result exists and lies
in `1..=64` as claimed. -/
theorem claim_C3_min_bits_total_range :
    min_bits (-(2 ^ 63)) = none ∧
    ∀ v : ℤ, -(2 ^ 63) ≤ v → v < 2 ^ 63 → v ≠ -(2 ^ 63) →
      ∃ mb, min_bits v = some mb ∧ 1 ≤ mb ∧ mb ≤ 64 := by
  constructor
  · decide
  · intro v h1 h2 h3
    exact min_bits_bounds h1 h2 h3

/-- Witness for C3 at `v = 5`. -/
theorem claim_C3_min_bits_total_range_witness :
    (-(2 ^ 63) : ℤ) ≤ 5 ∧ (5 : ℤ) < 2 ^ 63 ∧ (5 : ℤ) ≠ -(2 ^ 63) ∧
    ∃ mb, min_bits 5 = some mb ∧ 1 ≤ mb ∧ mb ≤ 64 :=
  ⟨by decide, by decide, by decide,
    claim_C3_min_bits_total_range.2 5 (by decide) (by decide) (by decide)⟩

/-! ### Claim C4 -/

/-- Claim C4: for `1 ≤ numBits ≤ 64`, `twos_complement 0 numBits = 0`; for
`numBits < 64` and `0 < magnitude < 2 ^ numBits` the result is
`2 ^ numBits - magnitude`, while `magnitude ≥ 2 ^ numBits` trips the
`assert!(value < cap)` (InvalidEncoding) and panics instead of returning; for
`numBits = 64` and `magnitude > 0` the result is `(u64::MAX - magnitude) + 1`. -/
theorem claim_C4_twos_complement (numBits magnitude : ℕ)
    (h1 : 1 ≤ numBits) (h64 : numBits ≤ 64) :
    twos_complement 0 numBits = some 0 ∧
    (numBits < 64 → 0 < magnitude → magnitude < 2 ^ numBits →
      twos_complement magnitude numBits = some (2 ^ numBits - magnitude)) ∧
    (numBits < 64 → 2 ^ numBits ≤ magnitude →
      twos_complement magnitude numBits = none) ∧
    (0 < magnitude → magnitude < 2 ^ 64 →
      twos_complement magnitude 64 = some (2 ^ 64 - 1 - magnitude + 1)) := by
  refine ⟨?_, ?_, ?_, ?_⟩
  · unfold twos_complement
    rw [if_neg (by omega)]
    simp
  · intro hlt hm0 hmcap
    unfold twos_complement
    rw [if_neg (by omega), if_neg (by omega), if_pos hlt, if_pos hmcap]
  · intro hlt hmcap
    have hpow : (0 : ℕ) < 2 ^ numBits := Nat.pos_pow_of_pos numBits (by omega)
    unfold twos_complement
    rw [if_neg (by omega), if_neg (by omega), if_pos hlt,
      if_neg (Nat.not_lt.mpr hmcap)]
  · intro hm0 _
    unfold twos_complement
    rw [if_neg (by omega), if_neg (by omega), if_neg (by omega)]

/-- Witness for C4 at `numBits = 3`, `magnitude = 5`. -/
theorem claim_C4_twos_complement_witness :
    1 ≤ 3 ∧ 3 ≤ 64 ∧ twos_complement 5 3 = some (2 ^ 3 - 5) :=
  ⟨by decide, by decide,
    (claim_C4_twos_complement 3 5 (by decide) (by decide)).2.1
      (by decide) (by decide) (by decide)⟩

/-! ### Claim C5 -/

/-- Claim C5: `twos_complement` is an involution on `0 ≤ m < 2 ^ n` for every
width `1 ≤ n ≤ 64`, and takes the specific values the tests pin down. -/
theorem claim_C5_twos_complement_involution :
    (∀ numBits magnitude : ℕ, 1 ≤ numBits → numBits ≤ 64 →
      magnitude < 2 ^ numBits →
      ∃ r, twos_complement magnitude numBits = some r ∧ r < 2 ^ numBits ∧
        twos_complement r numBits = some magnitude) ∧
    twos_complement 0 3 = some 0 ∧
    twos_complement 1 3 = some 7 ∧
    twos_complement 7 3 = some 1 ∧
    twos_complement 1 64 = some 0xFFFFFFFFFFFFFFFF ∧
    twos_complement 0xFFFFFFFFFFFFFFFF 64 = some 1 := by
  refine ⟨?_, by decide, by decide, by decide, by decide, by decide⟩
  intro n m h1 h64 hm
  have hpow : (0 : ℕ) < 2 ^ n := Nat.pos_pow_of_pos n (by omega)
  by_cases hm0 : m = 0
  · subst hm0
    refine ⟨0, ?_, hpow, ?_⟩ <;>
      · unfold twos_complement
        rw [if_neg (by omega)]
        simp
  · by_cases hn : n < 64
    · refine ⟨2 ^ n - m, ?_, by omega, ?_⟩
      · unfold twos_complement
        rw [if_neg (by omega), if_neg hm0, if_pos hn, if_pos hm]
      · unfold twos_complement
        rw [if_neg (by omega), if_neg (by omega), if_pos hn, if_pos (by omega)]
        congr 1
        omega
    · have hn64 : n = 64 := by omega
      subst hn64
      have h264 : (2 : ℕ) ^ 64 = 18446744073709551616 := by norm_num
      refine ⟨2 ^ 64 - 1 - m + 1, ?_, by omega, ?_⟩
      · unfold twos_complement
        rw [if_neg (by omega), if_neg hm0, if_neg (by omega)]
      · unfold twos_complement
        rw [if_neg (by omega), if_neg (by omega), if_neg (by omega)]
        congr 1
        omega

/-- Witness for C5 at `numBits = 3`, `magnitude = 5`. -/
theorem claim_C5_twos_complement_involution_witness :
    1 ≤ 3 ∧ 3 ≤ 64 ∧ 5 < 2 ^ 3 ∧
    ∃ r, twos_complement 5 3 = some r ∧ r < 2 ^ 3 ∧
      twos_complement r 3 = some 5 :=
  ⟨by decide, by decide, by decide,
    claim_C5_twos_complement_involution.1 3 5 (by decide) (by decide) (by decide)⟩

/-! ### bin_string (`lib.rs:48-70`) -/

/-- Model of the loop body of `bin_string`: `binLoop value numBits rem i`
produces the characters pushed by the iterations `i, i+1, …, i+rem-1` of

```rust
for i in 0..num_bits {
    if value & 1 == 1 { chars.push('1'); } else { chars.push('0'); }
    value >>= 1;
    if i < num_bits - 1 {
        if i % 8 == 3 { chars.push('_'); }
        if i % 8 == 7 { chars.push(' '); }
    }
}
```

in push order.  At iteration `i` the Rust loop has shifted `value` right `i`
times, so the pushed bit is `value / 2 ^ i % 2`. -/
def binLoop (value numBits : ℕ) : ℕ → ℕ → List Char
  | 0, _ => []
  | rem + 1, i =>
    (if value / 2 ^ i % 2 = 1 then '1' else '0') ::
      ((if i < numBits - 1 ∧ i % 8 = 3 then ['_'] else []) ++
        ((if i < numBits - 1 ∧ i % 8 = 7 then [' '] else []) ++
          binLoop value numBits rem (i + 1)))

/-- Model of `bin_string` (`lib.rs:48-70`): run the loop for all `numBits`
iterations, then reverse the pushed characters. -/
def bin_string (value numBits : ℕ) : String :=
  String.mk (binLoop value numBits numBits 0).reverse

/-- Proof helper: the characters iteration `i` pushes, with the
`i < num_bits - 1` guard resolved to true. -/
def segAll (value i : ℕ) : List Char :=
  (if value / 2 ^ i % 2 = 1 then '1' else '0') ::
    (if i % 8 = 3 then ['_'] else if i % 8 = 7 then [' '] else [])

/-- Proof helper: the characters iteration `i` pushes, guard included. -/
def segG (value numBits i : ℕ) : List Char :=
  (if value / 2 ^ i % 2 = 1 then '1' else '0') ::
    ((if i < numBits - 1 ∧ i % 8 = 3 then ['_'] else []) ++
      (if i < numBits - 1 ∧ i % 8 = 7 then [' '] else []))

/-- Proof helper: all characters pushed by iterations `0, …, m-1` when the
separator guard holds throughout. -/
def allChars (value : ℕ) : ℕ → List Char
  | 0 => []
  | m + 1 => allChars value m ++ segAll value m

/-- Separator the specification places between bit `n` and bit `n - 1` of the
rendered string: a space after every 8th bit and an underscore after every
4th bit inside a byte, counted from the least-significant bit, never at the
outer ends.  (The examples of the specification fix the precedence: at a byte
boundary only the space appears.) -/
def specSep (n : ℕ) : List Char :=
  if n % 8 = 0 ∧ n ≠ 0 then [' ']
  else if n % 8 = 4 then ['_']
  else []

/-- Specification-side rendering of `bin_string`, written from the contract's
words: exactly `numBits` binary digits, most-significant first, digit `j`
(counted from the least-significant bit) showing bit `j` of `value`, with
`specSep` between adjacent digits and no leading or trailing separator. -/
def specBinChars (value : ℕ) : ℕ → List Char
  | 0 => []
  | n + 1 =>
    (if value / 2 ^ n % 2 = 1 then '1' else '0') ::
      (specSep n ++ specBinChars value n)

/-- Specification-side rendering of `bin_string`, as a string. -/
def specBinString (value numBits : ℕ) : String :=
  String.mk (specBinChars value numBits)

lemma binLoop_cons (value numBits rem i : ℕ) :
    binLoop value numBits (rem + 1) i =
      segG value numBits i ++ binLoop value numBits rem (i + 1) := by
  simp [binLoop, segG, List.append_assoc]

lemma binLoop_snoc (value numBits : ℕ) :
    ∀ rem i, binLoop value numBits (rem + 1) i =
      binLoop value numBits rem i ++ segG value numBits (i + rem) := by
  intro rem
  induction rem with
  | zero =>
    intro i
    rw [binLoop_cons]
    simp [binLoop]
  | succ rem ih =>
    intro i
    rw [binLoop_cons, ih (i + 1), binLoop_cons]
    have he : i + 1 + rem = i + (rem + 1) := by omega
    rw [he]
    simp [List.append_assoc]

lemma segG_eq_segAll {value numBits i : ℕ} (h : i < numBits - 1) :
    segG value numBits i = segAll value i := by
  unfold segG segAll
  by_cases h3 : i % 8 = 3
  · simp [h3, h]
  · by_cases h7 : i % 8 = 7
    · simp [h3, h7, h]
    · simp [h3, h7, h]

lemma binLoop_eq_allChars (value numBits : ℕ) :
    ∀ m, m < numBits → binLoop value numBits m 0 = allChars value m := by
  intro m
  induction m with
  | zero => intro _; rfl
  | succ m ih =>
    intro hm
    rw [binLoop_snoc, ih (by omega), allChars]
    simp [segG_eq_segAll (show m < numBits - 1 by omega)]

lemma sepAll_eq_specSep_succ (m : ℕ) :
    (if m % 8 = 3 then ['_'] else if m % 8 = 7 then [' '] else []) =
      specSep (m + 1) := by
  unfold specSep
  by_cases h3 : m % 8 = 3
  · have h4 : (m + 1) % 8 = 4 := by omega
    simp [h3, h4]
  · by_cases h7 : m % 8 = 7
    · have h0 : (m + 1) % 8 = 0 := by omega
      simp [h3, h7, h0]
    · have hn0 : (m + 1) % 8 ≠ 0 := by omega
      have hn4 : (m + 1) % 8 ≠ 4 := by omega
      simp [h3, h7, hn0, hn4]

lemma specSep_reverse (n : ℕ) : (specSep n).reverse = specSep n := by
  unfold specSep
  split
  · rfl
  · split <;> rfl

lemma allChars_reverse (value : ℕ) :
    ∀ m, (allChars value m).reverse = specSep m ++ specBinChars value m := by
  intro m
  induction m with
  | zero => simp [allChars, specSep, specBinChars]
  | succ m ih =>
    rw [allChars]
    unfold segAll
    rw [sepAll_eq_specSep_succ]
    simp only [List.reverse_append, List.reverse_cons, specSep_reverse, ih]
    simp [specBinChars]

/-- The executable `bin_string` agrees with the specification-side rendering
for every value and width. -/
lemma bin_string_eq_spec (value numBits : ℕ) :
    bin_string value numBits = specBinString value numBits := by
  unfold bin_string specBinString
  cases numBits with
  | zero => rfl
  | succ m =>
    rw [binLoop_snoc, binLoop_eq_allChars value (m + 1) m (by omega)]
    have hseg : segG value (m + 1) (0 + m) =
        [if value / 2 ^ m % 2 = 1 then '1' else '0'] := by
      unfold segG
      simp [show ¬(0 + m < m + 1 - 1) by omega]
    rw [hseg]
    simp only [List.reverse_append, List.reverse_cons, List.reverse_nil,
      List.nil_append, allChars_reverse]
    simp [specBinChars]

lemma specBinChars_congr (value w : ℕ) :
    ∀ n, (∀ j, j < n → value / 2 ^ j % 2 = w / 2 ^ j % 2) →
      specBinChars value n = specBinChars w n := by
  intro n
  induction n with
  | zero => intro _; rfl
  | succ n ih =>
    intro h
    unfold specBinChars
    rw [h n (by omega), ih fun j hj => h j (by omega)]

lemma mod_pow_bit_eq {j n : ℕ} (value : ℕ) (hj : j < n) :
    value % 2 ^ n / 2 ^ j % 2 = value / 2 ^ j % 2 := by
  have hsplit : (2 : ℕ) ^ n = 2 ^ j * 2 ^ (n - j) := by
    rw [← pow_add]
    congr 1
    omega
  rw [hsplit, Nat.mod_mul_right_div_self]
  exact Nat.mod_mod_of_dvd _ (dvd_pow_self 2 (by omega : n - j ≠ 0))

/-! ### Claim C6 -/

/-- Claim C6: `bin_string value numBits` is exactly the specification-side
rendering (`numBits` binary digits of the low bits of `value`,
most-significant first, an underscore after every 4th and a space after every
8th bit counted from the least-significant bit, no leading or trailing
separator); it depends only on the low `numBits` bits of `value`; width 0
gives the empty string; and the four pinned examples hold. -/
theorem claim_C6_bin_string :
    (∀ value numBits : ℕ, value < 2 ^ 64 → numBits ≤ 64 →
      bin_string value numBits = specBinString value numBits ∧
      bin_string value numBits = bin_string (value % 2 ^ numBits) numBits) ∧
    (∀ value : ℕ, bin_string value 0 = "") ∧
    bin_string 0 8 = "0000_0000" ∧
    bin_string 256 8 = "0000_0000" ∧
    bin_string 0 16 = "0000_0000 0000_0000" ∧
    bin_string 256 12 = "0001 0000_0000" := by
  refine ⟨?_, ?_, by decide, by decide, by decide, by decide⟩
  · intro value numBits _ _
    refine ⟨bin_string_eq_spec value numBits, ?_⟩
    rw [bin_string_eq_spec, bin_string_eq_spec]
    unfold specBinString
    rw [specBinChars_congr value (value % 2 ^ numBits) numBits
      fun j hj => (mod_pow_bit_eq value hj).symm]
  · intro value
    rfl

/-- Witness for C6 at `value = 5`, `numBits = 12`. -/
theorem claim_C6_bin_string_witness :
    5 < 2 ^ 64 ∧ 12 ≤ 64 ∧ bin_string 5 12 = specBinString 5 12 :=
  ⟨by decide, by decide, (claim_C6_bin_string.1 5 12 (by decide) (by decide)).1⟩

/-! ### Claim C7 -/

lemma length_allChars (value : ℕ) :
    ∀ m, (allChars value m).length = m + (m + 4) / 8 + m / 8 := by
  intro m
  induction m with
  | zero => rfl
  | succ m ih =>
    rw [allChars]
    unfold segAll
    by_cases h3 : m % 8 = 3
    · simp only [List.length_append, ih, h3]
      simp
      omega
    · by_cases h7 : m % 8 = 7
      · simp only [List.length_append, ih]
        simp [h3, h7]
        omega
      · simp only [List.length_append, ih]
        simp [h3, h7]
        omega

/-- Claim C7 (corrected): the length of `bin_string value numBits` for widths
1 to 64 is `numBits + (numBits + 3) / 8 + (numBits - 1) / 8` — the digit count
plus one underscore for every completed 4-bit group inside a byte and one
space for every completed byte, the claimed formula
`numBits + (numBits - 1) / 4 - (numBits - 1) / 8` being wrong from width 9 on. -/
theorem claim_C7_bin_string_length (value numBits : ℕ)
    (h1 : 1 ≤ numBits) (h64 : numBits ≤ 64) :
    (bin_string value numBits).length =
      numBits + (numBits + 3) / 8 + (numBits - 1) / 8 := by
  obtain ⟨m, rfl⟩ : ∃ m, numBits = m + 1 := ⟨numBits - 1, by omega⟩
  show (binLoop value (m + 1) (m + 1) 0).reverse.length = _
  rw [binLoop_snoc, binLoop_eq_allChars value (m + 1) m (by omega)]
  have hseg : segG value (m + 1) (0 + m) =
      [if value / 2 ^ m % 2 = 1 then '1' else '0'] := by
    unfold segG
    simp [show ¬(0 + m < m + 1 - 1) by omega]
  rw [hseg]
  simp only [List.length_reverse, List.length_append, length_allChars,
    List.length_singleton]
  omega

/-- Witness for C7 at `value = 0`, `numBits = 16` (length 19). -/
theorem claim_C7_bin_string_length_witness :
    1 ≤ 16 ∧ 16 ≤ 64 ∧
    (bin_string 0 16).length = 16 + (16 + 3) / 8 + (16 - 1) / 8 :=
  ⟨by decide, by decide, claim_C7_bin_string_length 0 16 (by decide) (by decide)⟩

/-- Counterexample for C7 as frozen: at width 9 the rendered string
`"0 0000_0000"` has length 11, but the claimed formula
`9 + (9 - 1) / 4 - (9 - 1) / 8` gives 10. -/
theorem claim_C7_bin_string_length_cex :
    ¬((bin_string 0 9).length = 9 + (9 - 1) / 4 - (9 - 1) / 8) := by
  decide

/-! ### add_spacers (`lib.rs:31-44`) -/

/-- Model of the loop of `add_spacers`:

```rust
for (i, c) in string.chars().rev().enumerate() {
    chars.push(c);
    if i as u32 % block_len == block_len - 1 { chars.push(spacer); }
}
```

`spacerLoop spacer blockLen i l` emits, in push order, the characters for the
reversed input `l` starting at enumeration index `i`. -/
def spacerLoop (spacer : Char) (blockLen : ℕ) : ℕ → List Char → List Char
  | _, [] => []
  | i, c :: cs =>
    c :: ((if i % blockLen = blockLen - 1 then [spacer] else []) ++
      spacerLoop spacer blockLen (i + 1) cs)

/-- Model of `add_spacers` (`lib.rs:31-44`).  Panics, modelled as `none`:
`i % block_len` divides by zero on the first iteration when `block_len == 0`,
and `chars.last().unwrap()` fails when the input string is empty (the loop
then pushed nothing). -/
def add_spacers (s : String) (spacer : Char) (blockLen : ℕ) : Option String :=
  if blockLen = 0 then none
  else
    let chars := spacerLoop spacer blockLen 0 s.data.reverse
    match chars.getLast? with
    | none => none
    | some c =>
      some (String.mk (if c = spacer then chars.dropLast else chars).reverse)

/-- Specification-side loop, written from the spec's words: a spacer after
every `blockLen`-th character counted from the right (`l` is the reversed
input), except never after the last processed — i.e. leftmost — character. -/
def specSpacerRun (spacer : Char) (blockLen : ℕ) : ℕ → List Char → List Char
  | _, [] => []
  | i, c :: cs =>
    c :: ((if i % blockLen = blockLen - 1 ∧ cs ≠ [] then [spacer] else []) ++
      specSpacerRun spacer blockLen (i + 1) cs)

/-- Specification-side `add_spacers`: group from the rightmost character,
never inserting a leading spacer, total for every input. -/
def spec_add_spacers (s : String) (spacer : Char) (blockLen : ℕ) : String :=
  String.mk (specSpacerRun spacer blockLen 0 s.data.reverse).reverse

/-- Proof helper: the post-loop fixup of `add_spacers`
(`if chars.last().unwrap() == &spacer { chars.pop(); }`). -/
def stripIf (spacer : Char) (l : List Char) : List Char :=
  if l.getLast? = some spacer then l.dropLast else l

lemma spacerLoop_ne_nil {spacer : Char} {blockLen : ℕ} {i : ℕ} {l : List Char}
    (h : l ≠ []) : spacerLoop spacer blockLen i l ≠ [] := by
  cases l with
  | nil => exact absurd rfl h
  | cons c cs => simp [spacerLoop]

lemma specSpacerRun_ne_nil {spacer : Char} {blockLen : ℕ} {i : ℕ}
    {l : List Char} (h : l ≠ []) : specSpacerRun spacer blockLen i l ≠ [] := by
  cases l with
  | nil => exact absurd rfl h
  | cons c cs => simp [specSpacerRun]

lemma stripIf_append {spacer : Char} (a : List Char) {l : List Char}
    (h : l ≠ []) : stripIf spacer (a ++ l) = a ++ stripIf spacer l := by
  unfold stripIf
  rw [List.getLast?_append_of_ne_nil a h]
  split
  · rw [List.dropLast_append_of_ne_nil a h]
  · rfl

lemma getLast?_cons_of_ne_nil {c : Char} {l : List Char} (h : l ≠ []) :
    (c :: l).getLast? = l.getLast? := by
  cases l with
  | nil => exact absurd rfl h
  | cons d ds => exact List.getLast?_cons_cons

lemma specSpacerRun_getLast? (spacer : Char) (blockLen : ℕ) :
    ∀ l i, l ≠ [] →
      (specSpacerRun spacer blockLen i l).getLast? = l.getLast? := by
  intro l
  induction l with
  | nil => intro i h; exact absurd rfl h
  | cons c cs ih =>
    intro i _
    cases cs with
    | nil => simp [specSpacerRun]
    | cons c2 cs2 =>
      have hne : (c2 :: cs2 : List Char) ≠ [] := by simp
      rw [specSpacerRun,
        getLast?_cons_of_ne_nil
          (by
            intro hcon
            exact
              specSpacerRun_ne_nil hne
                (List.append_eq_nil.mp hcon).2),
        List.getLast?_append_of_ne_nil _ (specSpacerRun_ne_nil hne),
        ih (i + 1) hne, getLast?_cons_of_ne_nil hne]

/-- Core correctness of the strip-after-loop trick: as long as the character
at the far (post-reversal leading) end is not the spacer itself, inserting a
spacer after every block and popping a dangling one equals inserting spacers
only between blocks. -/
lemma stripIf_spacerLoop (spacer : Char) (blockLen : ℕ) :
    ∀ l i, l ≠ [] → l.getLast? ≠ some spacer →
      stripIf spacer (spacerLoop spacer blockLen i l) =
        specSpacerRun spacer blockLen i l := by
  intro l
  induction l with
  | nil => intro i h; exact absurd rfl h
  | cons c cs ih =>
    intro i _ hlast
    cases cs with
    | nil =>
      by_cases hcond : i % blockLen = blockLen - 1
      · simp [spacerLoop, specSpacerRun, hcond, stripIf]
      · have hc : c ≠ spacer := by
          intro hcon
          exact hlast (by simp [hcon])
        simp [spacerLoop, specSpacerRun, hcond, stripIf, hc]
    | cons c2 cs2 =>
      have hne : (c2 :: cs2 : List Char) ≠ [] := by simp
      have hlast2 : (c2 :: cs2 : List Char).getLast? ≠ some spacer := by
        rwa [getLast?_cons_of_ne_nil hne] at hlast
      rw [spacerLoop, specSpacerRun]
      have hcons : (c :: ((if i % blockLen = blockLen - 1 then [spacer] else []) ++
          spacerLoop spacer blockLen (i + 1) (c2 :: cs2))) =
          (c :: (if i % blockLen = blockLen - 1 then [spacer] else [])) ++
            spacerLoop spacer blockLen (i + 1) (c2 :: cs2) := by
        simp
      rw [hcons, stripIf_append _ (spacerLoop_ne_nil hne), ih (i + 1) hne hlast2]
      simp [hne]

/-- For nonempty input and nonzero block length the code returns a value,
namely the loop output with a dangling trailing spacer stripped. -/
lemma add_spacers_eq_stripIf {s : String} {spacer : Char} {blockLen : ℕ}
    (hs : s.data ≠ []) (hb : blockLen ≠ 0) :
    add_spacers s spacer blockLen =
      some (String.mk
        (stripIf spacer (spacerLoop spacer blockLen 0 s.data.reverse)).reverse) := by
  unfold add_spacers
  rw [if_neg hb]
  have hrev : s.data.reverse ≠ [] := by
    intro hcon
    exact hs (by simpa using congrArg List.reverse hcon)
  have hne := @spacerLoop_ne_nil spacer blockLen 0 s.data.reverse hrev
  unfold stripIf
  cases hL : (spacerLoop spacer blockLen 0 s.data.reverse).getLast? with
  | none => exact absurd (List.getLast?_eq_none_iff.mp hL) hne
  | some c =>
    simp only [hL]
    by_cases hc : c = spacer
    · simp [hc]
    · simp [hc]

/-! ### Claim C8 -/

/-- Claim C8 (corrected): for every nonempty input that does not begin with
the spacer character and every `blockLen ≥ 1`, `add_spacers` returns the
specification-side grouping (spacer after every `blockLen` characters counted
from the right, no leading spacer) and preserves the leading character; the
two pinned examples hold. -/
theorem claim_C8_add_spacers :
    (∀ (s : String) (spacer : Char) (blockLen : ℕ),
      s.data ≠ [] → s.data.head? ≠ some spacer → 1 ≤ blockLen →
      add_spacers s spacer blockLen =
        some (spec_add_spacers s spacer blockLen) ∧
      (spec_add_spacers s spacer blockLen).data.head? = s.data.head?) ∧
    add_spacers "1A2B" ' ' 2 = some "1A 2B" ∧
    add_spacers "123456" ',' 3 = some "123,456" := by
  refine ⟨?_, by decide, by decide⟩
  intro s spacer blockLen hs hhead hb
  have hrev : s.data.reverse ≠ [] := by
    intro hcon
    exact hs (by simpa using congrArg List.reverse hcon)
  have hlast : s.data.reverse.getLast? ≠ some spacer := by
    rwa [List.getLast?_reverse]
  constructor
  · rw [add_spacers_eq_stripIf hs (by omega),
      stripIf_spacerLoop spacer blockLen s.data.reverse 0 hrev hlast]
    rfl
  · show (specSpacerRun spacer blockLen 0 s.data.reverse).reverse.head? = _
    rw [List.head?_reverse,
      specSpacerRun_getLast? spacer blockLen s.data.reverse 0 hrev,
      List.getLast?_reverse]

/-- Witness for C8 at `s = "1A2B"`, spacer `' '`, block length 2. -/
theorem claim_C8_add_spacers_witness :
    ("1A2B" : String).data ≠ [] ∧
    ("1A2B" : String).data.head? ≠ some ' ' ∧ 1 ≤ 2 ∧
    add_spacers "1A2B" ' ' 2 = some (spec_add_spacers "1A2B" ' ' 2) :=
  ⟨by decide, by decide, by decide,
    (claim_C8_add_spacers.1 "1A2B" ' ' 2 (by decide) (by decide) (by decide)).1⟩

/-- Counterexample for C8 as frozen: the claim promises a result for every
input length, but on the empty string the code panics
(`chars.last().unwrap()` on an empty vector); and on an input that begins
with the spacer character the pop removes a data character: the contract
result for `add_spacers ",1" ',' 3` is `",1"` (no group of 3 is complete),
the code returns `"1"`. -/
theorem claim_C8_add_spacers_cex :
    add_spacers "" ' ' 2 = none ∧
    add_spacers ",1" ',' 3 = some "1" ∧
    spec_add_spacers ",1" ',' 3 = ",1" := by
  refine ⟨by decide, by decide, by decide⟩

/-! ### parse_int (`lib.rs:89-118`) -/

/-- Model of Rust's `char::to_digit(radix)`: decimal digits, then lowercase
and uppercase letters valued from 10, accepted only below the radix. -/
def charDigit (radix : ℕ) (c : Char) : Option ℕ :=
  let d : Option ℕ :=
    if '0' ≤ c ∧ c ≤ '9' then some (c.toNat - '0'.toNat)
    else if 'a' ≤ c ∧ c ≤ 'z' then some (c.toNat - 'a'.toNat + 10)
    else if 'A' ≤ c ∧ c ≤ 'Z' then some (c.toNat - 'A'.toNat + 10)
    else none
  match d with
  | some v => if v < radix then some v else none
  | none => none

/-- Digit-accumulation loop of `i64::from_str_radix`: left-to-right Horner
accumulation, failing on the first character that is not a digit of the
radix. -/
def digitsLoop (radix : ℕ) : ℕ → List Char → Option ℕ
  | acc, [] => some acc
  | acc, c :: cs =>
    match charDigit radix c with
    | some d => digitsLoop radix (acc * radix + d) cs
    | none => none

/-- Model of `i64::from_str_radix`: an optional single leading `+` or `-`,
then a nonempty run of digits of the radix, accumulated into an `i64`.
Rust checks for overflow at every accumulation step
(`checked_mul` / `checked_add` / `checked_sub`); because the accumulator is
monotone (nondecreasing for positive parses, nonincreasing for negative
ones), some step overflows exactly when the final mathematical value lies
outside `i64`, which is how the check is expressed here. -/
def from_str_radix (radix : ℕ) (s : List Char) : Option ℤ :=
  let digits := if s.head? = some '-' ∨ s.head? = some '+' then s.tail else s
  if digits = [] then none
  else
    match digitsLoop radix 0 digits with
    | none => none
    | some n =>
      let val : ℤ := if s.head? = some '-' then -(n : ℤ) else (n : ℤ)
      if -(2 ^ 63) ≤ val ∧ val ≤ 2 ^ 63 - 1 then some val else none

/-- Model of `parse_int` (`lib.rs:89-118`):

```rust
pub fn parse_int(arg: &str) -> Option<i64> {
    if arg.is_empty() { return None; }
    let mut trimmed = arg.trim_start_matches('0');
    if trimmed.is_empty() { return Some(0); }
    let mut radix: u32 = 10;
    if trimmed.starts_with('b') { radix = 2; trimmed = trimmed.trim_start_matches('b'); }
    else if trimmed.starts_with('o') { radix = 8; trimmed = trimmed.trim_start_matches('o'); }
    else if trimmed.starts_with('d') { radix = 10; trimmed = trimmed.trim_start_matches('d'); }
    else if trimmed.starts_with('x') { radix = 16; trimmed = trimmed.trim_start_matches('x'); }
    match i64::from_str_radix(trimmed, radix) { Ok(value) => Some(value), Err(_) => None }
}
```

Note `trim_start_matches` removes the *whole* leading run of the matched
character, not a single occurrence. -/
def parse_int (s : String) : Option ℤ :=
  if s.data = [] then none
  else
    let trimmed := s.data.dropWhile (fun c => c == '0')
    if trimmed = [] then some 0
    else if trimmed.head? = some 'b' then
      from_str_radix 2 (trimmed.dropWhile (fun c => c == 'b'))
    else if trimmed.head? = some 'o' then
      from_str_radix 8 (trimmed.dropWhile (fun c => c == 'o'))
    else if trimmed.head? = some 'd' then
      from_str_radix 10 (trimmed.dropWhile (fun c => c == 'd'))
    else if trimmed.head? = some 'x' then
      from_str_radix 16 (trimmed.dropWhile (fun c => c == 'x'))
    else from_str_radix 10 trimmed

/-- The parser the claim describes, differing from the code in exactly one
place: the matched radix-prefix letter is stripped "only once, not repeated"
(`tail` instead of the full leading run). -/
def parse_int_claim_once (s : String) : Option ℤ :=
  if s.data = [] then none
  else
    let trimmed := s.data.dropWhile (fun c => c == '0')
    if trimmed = [] then some 0
    else if trimmed.head? = some 'b' then from_str_radix 2 trimmed.tail
    else if trimmed.head? = some 'o' then from_str_radix 8 trimmed.tail
    else if trimmed.head? = some 'd' then from_str_radix 10 trimmed.tail
    else if trimmed.head? = some 'x' then from_str_radix 16 trimmed.tail
    else from_str_radix 10 trimmed

/-- Fuel-driven most-significant-first decimal rendering of a natural number
(the digits of `n`, empty for `n = 0`); `fuel = 64` covers every `n < 10^64`. -/
def natToDecChars : ℕ → ℕ → List Char
  | 0, _ => []
  | fuel + 1, n =>
    if n = 0 then []
    else natToDecChars fuel (n / 10) ++ [Char.ofNat (48 + n % 10)]

/-- The decimal string of a natural number, as the claim's round-trip
property uses it (Rust's `v.to_string()` for nonnegative `v`). -/
def decimalChars (v : ℕ) : List Char :=
  if v = 0 then ['0'] else natToDecChars 64 v

lemma natToDecChars_zero : ∀ fuel, natToDecChars fuel 0 = [] := by
  intro fuel
  cases fuel with
  | zero => rfl
  | succ fuel => simp [natToDecChars]

lemma charDigit_decChar {d : ℕ} (hd : d < 10) :
    charDigit 10 (Char.ofNat (48 + d)) = some d := by
  interval_cases d <;> decide

lemma string_data_mk (l : List Char) : (String.mk l).data = l := rfl

lemma decChar_facts {d : ℕ} (hd : d < 10) :
    Char.ofNat (48 + d) ≠ '-' ∧ Char.ofNat (48 + d) ≠ '+' ∧
    Char.ofNat (48 + d) ≠ 'b' ∧ Char.ofNat (48 + d) ≠ 'o' ∧
    Char.ofNat (48 + d) ≠ 'd' ∧ Char.ofNat (48 + d) ≠ 'x' ∧
    (0 < d → Char.ofNat (48 + d) ≠ '0') := by
  interval_cases d <;>
    refine ⟨by decide, by decide, by decide, by decide, by decide, by decide, ?_⟩ <;>
    first
      | (intro h; exact absurd h (by decide))
      | (intro h; decide)

lemma digitsLoop_append (radix : ℕ) :
    ∀ (l1 l2 : List Char) (acc a : ℕ), digitsLoop radix acc l1 = some a →
      digitsLoop radix acc (l1 ++ l2) = digitsLoop radix a l2 := by
  intro l1
  induction l1 with
  | nil =>
    intro l2 acc a h
    simp only [digitsLoop] at h
    simp only [List.nil_append]
    rw [Option.some.inj h]
  | cons c cs ih =>
    intro l2 acc a h
    rw [List.cons_append]
    simp only [digitsLoop] at h ⊢
    cases hd : charDigit radix c with
    | none => rw [hd] at h; exact absurd h (by simp)
    | some d =>
      rw [hd] at h
      exact ih l2 (acc * radix + d) a h

lemma digitsLoop_natToDecChars :
    ∀ fuel n acc, n < 10 ^ fuel →
      digitsLoop 10 acc (natToDecChars fuel n) =
        some (acc * 10 ^ (natToDecChars fuel n).length + n) := by
  intro fuel
  induction fuel with
  | zero =>
    intro n acc hn
    interval_cases n
    simp [natToDecChars, digitsLoop]
  | succ fuel ih =>
    intro n acc hn
    by_cases h0 : n = 0
    · subst h0
      simp [natToDecChars_zero, digitsLoop]
    · have hdiv : n / 10 < 10 ^ fuel := by
        rw [Nat.div_lt_iff_lt_mul (by norm_num)]
        calc n < 10 ^ (fuel + 1) := hn
        _ = 10 ^ fuel * 10 := by rw [pow_succ]
      have hstep := ih (n / 10) acc hdiv
      rw [show natToDecChars (fuel + 1) n =
          natToDecChars fuel (n / 10) ++ [Char.ofNat (48 + n % 10)] from by
        simp [natToDecChars, h0]]
      rw [digitsLoop_append 10 _ _ _ _ hstep]
      simp only [digitsLoop, charDigit_decChar (Nat.mod_lt n (by norm_num))]
      rw [List.length_append]
      congr 1
      have hmod : n / 10 * 10 + n % 10 = n := by omega
      have hlen : (10 : ℕ) ^ ((natToDecChars fuel (n / 10)).length + 1) =
          10 ^ (natToDecChars fuel (n / 10)).length * 10 := pow_succ 10 _
      simp only [List.length_singleton, hlen]
      ring_nf
      omega

lemma natToDecChars_head :
    ∀ fuel n, 0 < n → n < 10 ^ fuel →
      ∃ d, 0 < d ∧ d < 10 ∧
        (natToDecChars fuel n).head? = some (Char.ofNat (48 + d)) := by
  intro fuel
  induction fuel with
  | zero => intro n hn0 hn; omega
  | succ fuel ih =>
    intro n hn0 hn
    simp only [natToDecChars, if_neg (by omega : ¬n = 0)]
    by_cases hq : n / 10 = 0
    · have hsmall : n < 10 := by omega
      refine ⟨n % 10, by omega, by omega, ?_⟩
      rw [hq, natToDecChars_zero]
      simp
    · have hdiv : n / 10 < 10 ^ fuel := by
        rw [Nat.div_lt_iff_lt_mul (by norm_num)]
        calc n < 10 ^ (fuel + 1) := hn
        _ = 10 ^ fuel * 10 := by rw [pow_succ]
      obtain ⟨d, hd0, hd10, hhead⟩ := ih (n / 10) (by omega) hdiv
      refine ⟨d, hd0, hd10, ?_⟩
      cases hL : natToDecChars fuel (n / 10) with
      | nil => rw [hL] at hhead; exact absurd hhead (by simp)
      | cons c t =>
        rw [hL] at hhead
        simp only [List.head?_cons] at hhead
        simp [hhead]

/-- Reduction of `from_str_radix` on a sign-free digit string whose value is
in range. -/
lemma from_str_radix_cons {radix : ℕ} {c : Char} {t : List Char} {n : ℕ}
    (hm : c ≠ '-') (hp : c ≠ '+')
    (hloop : digitsLoop radix 0 (c :: t) = some n)
    (hb : (n : ℤ) ≤ 2 ^ 63 - 1) :
    from_str_radix radix (c :: t) = some (n : ℤ) := by
  have hb1 : -(2 ^ 63 : ℤ) ≤ (n : ℤ) := by
    have h0 : (0 : ℤ) ≤ (n : ℤ) := Int.natCast_nonneg n
    have hpow : (0 : ℤ) ≤ 2 ^ 63 := by positivity
    omega
  simp [from_str_radix, hm, hp, hloop]
  norm_num at hb1 hb
  omega

lemma dropWhile_beq_replicate (a : Char) :
    ∀ (k : ℕ) (rest : List Char),
      List.dropWhile (fun c => c == a) (List.replicate k a ++ rest) =
        List.dropWhile (fun c => c == a) rest := by
  intro k
  induction k with
  | zero => intro rest; simp
  | succ k ih =>
    intro rest
    rw [List.replicate_succ, List.cons_append, List.dropWhile_cons]
    simp [ih]

/-! ### Claim C1 -/

/-- Claim C1 (corrected): `parse_int` rejects the empty string, maps
all-zero inputs to 0 before prefix detection, honours the four radix
prefixes, round-trips every nonnegative decimal literal in range — but the
matched prefix letter is stripped repeatedly (the whole leading run), not
"only once": the last conjunct shows any positive run of `b`s collapses into
one binary prefix. -/
theorem claim_C1_parse_int :
    parse_int "" = none ∧
    parse_int "00" = some 0 ∧
    parse_int "0x101" = some 257 ∧
    parse_int "b101" = some 5 ∧
    parse_int "o101" = some 65 ∧
    parse_int "d101" = some 101 ∧
    (∀ v : ℕ, v < 2 ^ 63 → parse_int (String.mk (decimalChars v)) = some v) ∧
    (∀ (k : ℕ) (rest : List Char),
      parse_int (String.mk (List.replicate (k + 1) 'b' ++ rest)) =
        from_str_radix 2 (rest.dropWhile (fun c => c == 'b'))) := by
  refine ⟨by decide, by decide, by decide, by decide, by decide, by decide,
    ?_, ?_⟩
  · intro v hv
    by_cases h0 : v = 0
    · subst h0; decide
    · have hval : v < 10 ^ 64 := by
        calc v < 2 ^ 63 := hv
        _ < 10 ^ 64 := by norm_num
      obtain ⟨d, hd0, hd10, hhead⟩ := natToDecChars_head 64 v (by omega) hval
      obtain ⟨hm, hp, hb, ho, hd', hx, hz⟩ := decChar_facts hd10
      obtain ⟨t, hL⟩ : ∃ t, natToDecChars 64 v = Char.ofNat (48 + d) :: t := by
        cases hLc : natToDecChars 64 v with
        | nil => rw [hLc] at hhead; exact absurd hhead (by simp)
        | cons c t =>
          rw [hLc] at hhead
          simp only [List.head?_cons, Option.some.injEq] at hhead
          exact ⟨t, by rw [hhead]⟩
      have hz' : Char.ofNat (48 + d) ≠ '0' := hz hd0
      have hloop : digitsLoop 10 0 (Char.ofNat (48 + d) :: t) = some v := by
        rw [← hL, digitsLoop_natToDecChars 64 v 0 hval]
        simp
      have hbound : (v : ℤ) ≤ 2 ^ 63 - 1 := by
        have hvZ : (v : ℤ) < ((2 ^ 63 : ℕ) : ℤ) := by exact_mod_cast hv
        have hcast : ((2 ^ 63 : ℕ) : ℤ) = 2 ^ 63 := by norm_num
        omega
      have hne : ¬(Char.ofNat (48 + d) :: t = []) := by simp
      have hdw : List.dropWhile (fun c => c == '0') (Char.ofNat (48 + d) :: t) =
          Char.ofNat (48 + d) :: t := by
        rw [List.dropWhile_cons]
        simp [hz']
      have hhb : ¬((Char.ofNat (48 + d) :: t : List Char).head? = some 'b') := by
        simp [hb]
      have hho : ¬((Char.ofNat (48 + d) :: t : List Char).head? = some 'o') := by
        simp [ho]
      have hhd : ¬((Char.ofNat (48 + d) :: t : List Char).head? = some 'd') := by
        simp [hd']
      have hhx : ¬((Char.ofNat (48 + d) :: t : List Char).head? = some 'x') := by
        simp [hx]
      rw [show String.mk (decimalChars v) = String.mk (Char.ofNat (48 + d) :: t) from
        congrArg String.mk (by unfold decimalChars; rw [if_neg h0, hL])]
      simp only [parse_int, string_data_mk]
      rw [if_neg hne, hdw, if_neg hne, if_neg hhb, if_neg hho, if_neg hhd,
        if_neg hhx]
      exact from_str_radix_cons hm hp hloop hbound
  · intro k rest
    have hne : ¬('b' :: (List.replicate k 'b' ++ rest) = []) := by simp
    have hbz : ¬(('b' : Char) = '0') := by decide
    have hdw0 : List.dropWhile (fun c => c == '0')
        ('b' :: (List.replicate k 'b' ++ rest)) =
        'b' :: (List.replicate k 'b' ++ rest) := by
      rw [List.dropWhile_cons]
      simp [hbz]
    have hposb : ('b' :: (List.replicate k 'b' ++ rest) : List Char).head? =
        some 'b' := rfl
    have hdwb : List.dropWhile (fun c => c == 'b')
        ('b' :: (List.replicate k 'b' ++ rest)) =
        List.dropWhile (fun c => c == 'b') rest := by
      rw [List.dropWhile_cons]
      have hbb : (('b' : Char) == 'b') = true := by decide
      rw [hbb]
      simp [dropWhile_beq_replicate]
    rw [show String.mk (List.replicate (k + 1) 'b' ++ rest) =
        String.mk ('b' :: (List.replicate k 'b' ++ rest)) from
      congrArg String.mk (by rw [List.replicate_succ, List.cons_append])]
    simp only [parse_int, string_data_mk]
    rw [if_neg hne, hdw0, if_neg hne, if_pos hposb, hdwb]

/-- Witness for C1's round-trip conjunct at `v = 42`. -/
theorem claim_C1_parse_int_witness :
    42 < 2 ^ 63 ∧ parse_int (String.mk (decimalChars 42)) = some 42 :=
  ⟨by decide, claim_C1_parse_int.2.2.2.2.2.2.1 42 (by decide)⟩

/-- Counterexample for C1 as frozen: the claim says the radix prefix letter
is "stripped only once, not repeated", under which `"bb101"` would parse the
remainder `"b101"` in base 2 and fail; the code strips the whole run
(`trim_start_matches`) and returns 5. -/
theorem claim_C1_parse_int_cex :
    parse_int "bb101" = some 5 ∧ parse_int_claim_once "bb101" = none := by
  refine ⟨by decide, by decide⟩

/-! ### ascii (`lib.rs:123-168`, duplicated verbatim in `main.rs:225-270`) -/

/-- The fixed name table of `ascii`: the `match` arms for the unprintable
codes 0–32 and 127; `none` stands for the `_ => panic!("unexpected value")`
catch-all arm. -/
def asciiName (value : ℤ) : Option String :=
  match value with
  | 0 => some "[null]"
  | 1 => some "[start of heading]"
  | 2 => some "[start of text]"
  | 3 => some "[end of text]"
  | 4 => some "[end of transmission]"
  | 5 => some "[enquiry]"
  | 6 => some "[acknowledge]"
  | 7 => some "[bell]"
  | 8 => some "[backspace]"
  | 9 => some "[horizontal tab]"
  | 10 => some "[line feed]"
  | 11 => some "[vertical tab]"
  | 12 => some "[form feed]"
  | 13 => some "[carriage return]"
  | 14 => some "[shift out]"
  | 15 => some "[shift in]"
  | 16 => some "[data link escape]"
  | 17 => some "[device control 1]"
  | 18 => some "[device control 2]"
  | 19 => some "[device control 3]"
  | 20 => some "[device control 4]"
  | 21 => some "[negative acknowledge]"
  | 22 => some "[synchronous idle]"
  | 23 => some "[end of transmission block]"
  | 24 => some "[cancel]"
  | 25 => some "[end of medium]"
  | 26 => some "[substitute]"
  | 27 => some "[escape]"
  | 28 => some "[file separator]"
  | 29 => some "[group separator]"
  | 30 => some "[record separator]"
  | 31 => some "[unit separator]"
  | 32 => some "[space]"
  | 127 => some "[del]"
  | _ => none

/-- Model of `ascii` (`lib.rs:123-168`).  The outer `Option` is panic
(`none` = the catch-all `panic!` arm fires), the inner one is the Rust
return value: `some none` = Rust `None`, `some (some s)` = `Some(s)`.
For `32 < value < 127` the returned string is the character itself
(`value as u8 as char` formatted with `{}`). -/
def ascii (value : ℤ) : Option (Option String) :=
  if value < 0 ∨ 127 < value then some none
  else if 32 < value ∧ value < 127 then
    some (some (String.mk [Char.ofNat value.toNat]))
  else
    match asciiName value with
    | some s => some (some s)
    | none => none

lemma asciiName_some {v : ℤ} (h : (0 ≤ v ∧ v ≤ 32) ∨ v = 127) :
    ∃ s, asciiName v = some s := by
  rcases h with ⟨h1, h2⟩ | rfl
  · interval_cases v <;> exact ⟨_, rfl⟩
  · exact ⟨_, rfl⟩

/-! ### Claim C10 -/

/-- Claim C10: `ascii` is total over all of `ℤ` (so in particular over the
`i64` domain) and never reaches the `panic!` catch-all; it returns `None`
exactly for `value < 0` or `value > 127`, the one-character string of the
character itself for `32 < value < 127`, and the fixed bracketed name of the
table for `0 ≤ value ≤ 32` and for 127. -/
theorem claim_C10_ascii :
    ∀ value : ℤ,
      (ascii value).isSome ∧
      ((ascii value = some none) ↔ (value < 0 ∨ 127 < value)) ∧
      (32 < value → value < 127 →
        ascii value = some (some (String.mk [Char.ofNat value.toNat]))) ∧
      ((0 ≤ value ∧ value ≤ 32) ∨ value = 127 →
        ∃ s, ascii value = some (some s) ∧ asciiName value = some s) := by
  intro v
  by_cases hout : v < 0 ∨ 127 < v
  · have heq : ascii v = some none := by
      unfold ascii
      rw [if_pos hout]
    refine ⟨by simp [heq], by simp [heq, hout], ?_, ?_⟩
    · intro h1 h2
      exfalso
      rcases hout with h | h <;> omega
    · intro hin
      exfalso
      rcases hin with ⟨h1, h2⟩ | rfl <;> rcases hout with h | h <;> omega
  · have hcond : ¬(v < 0 ∨ 127 < v) := hout
    by_cases hmid : 32 < v ∧ v < 127
    · have heq : ascii v = some (some (String.mk [Char.ofNat v.toNat])) := by
        unfold ascii
        rw [if_neg hcond, if_pos hmid]
      refine ⟨by simp [heq], ?_, fun _ _ => heq, ?_⟩
      · rw [heq]
        simp
        omega
      · intro hin
        exfalso
        rcases hin with ⟨h1, h2⟩ | rfl <;> omega
    · have hin : (0 ≤ v ∧ v ≤ 32) ∨ v = 127 := by omega
      obtain ⟨s, hs⟩ := asciiName_some hin
      have heq : ascii v = some (some s) := by
        unfold ascii
        rw [if_neg hcond, if_neg hmid, hs]
      refine ⟨by simp [heq], ?_, ?_, fun _ => ⟨s, heq, hs⟩⟩
      · rw [heq]
        simp
        omega
      · intro h1 h2
        exact absurd ⟨h1, h2⟩ hmid

/-- Witness for C10 at `value = 65` (the letter A). -/
theorem claim_C10_ascii_witness :
    (32 : ℤ) < 65 ∧ (65 : ℤ) < 127 ∧
    ascii 65 = some (some (String.mk [Char.ofNat (65 : ℤ).toNat])) :=
  ⟨by decide, by decide, (claim_C10_ascii 65).2.2.1 (by decide) (by decide)⟩

/-! ### int_info (`main.rs:184-222`) -/

/-- Result of a single `int_info` invocation.  The error constructors carry
exactly the data interpolated into the two error format strings
(`"Error: unsupported bit size."` and
`"Error: {value} requires at least {min_bits} bits."`); `report` carries the
semantic pieces of the successful report (minimum bits, display width,
unsigned display value, optional ascii line).  The `format!` string
interpolation of `uint_info` is presentation glue and is not modelled. -/
inductive IntInfoOut where
  | errUnsupported : IntInfoOut
  | errInsufficient (value : ℤ) (minBits : ℕ) : IntInfoOut
  | report (minBits numBits dispValue : ℕ) (asciiField : Option String) : IntInfoOut
deriving DecidableEq

/-- Model of `int_info` (`main.rs:184-222`):

```rust
fn int_info(value: i64, user_bits: Option<u32>) -> String {
    let min_bits = min_bits(value);
    let std_bits = std_bits(value);
    let num_bits = if value >= 0 { user_bits.unwrap_or(min_bits) }
                   else { user_bits.unwrap_or(std_bits) };
    if num_bits == 0 || num_bits > 64 { return "Error: unsupported bit size."; }
    if num_bits < min_bits { return "Error: {} requires at least {} bits."; }
    let disp_value = if value >= 0 { value as u64 }
                     else { twos_complement(value.abs() as u64, num_bits) };
    ...
}
```

`none` is a panic inside a callee (`min_bits` at `i64::MIN`, a failed
`twos_complement` assertion, the unreachable `ascii` catch-all). -/
def int_info (value : ℤ) (userBits : Option ℕ) : Option IntInfoOut :=
  match min_bits value, std_bits value with
  | some mb, some sb =>
    let numBits := if 0 ≤ value then userBits.getD mb else userBits.getD sb
    if numBits = 0 ∨ 64 < numBits then some IntInfoOut.errUnsupported
    else if numBits < mb then some (IntInfoOut.errInsufficient value mb)
    else
      match (if 0 ≤ value then some value.toNat
             else twos_complement value.natAbs numBits), ascii value with
      | some disp, some asc => some (IntInfoOut.report mb numBits disp asc)
      | _, _ => none
  | _, _ => none

/-! ### Claim C9 -/

/-- Claim C9 (corrected): with an explicit user width `w` satisfying
`1 ≤ w < min_bits(value)`, `int_info` returns the InsufficientWidth error
carrying the value and its minimum width, and computes no encoding and no
report.  For `w = 0` — which the claim as frozen also covers — the
`num_bits == 0 || num_bits > 64` check fires first, so the code signals
UnsupportedWidth instead. -/
theorem claim_C9_int_info_insufficient :
    (∀ (value : ℤ) (mb w : ℕ), -(2 ^ 63) ≤ value → value < 2 ^ 63 →
      min_bits value = some mb → 1 ≤ w → w < mb →
      int_info value (some w) = some (IntInfoOut.errInsufficient value mb)) ∧
    (∀ (value : ℤ) (mb : ℕ), min_bits value = some mb →
      int_info value (some 0) = some IntInfoOut.errUnsupported) := by
  constructor
  · intro v mb w h1 h2 hmb hw1 hw2
    have hne : v ≠ -(2 ^ 63) := by
      intro hcon
      rw [hcon] at hmb
      have hnone : min_bits (-(2 ^ 63) : ℤ) = none := by decide
      rw [hnone] at hmb
      exact Option.noConfusion hmb
    have hmb64 : mb ≤ 64 := by
      obtain ⟨mb', hmb', _, hle⟩ := min_bits_bounds h1 h2 hne
      rw [hmb] at hmb'
      have := Option.some.inj hmb'
      omega
    obtain ⟨sb, hsb⟩ : ∃ sb, std_bits v = some sb :=
      ⟨_, by rw [std_bits, hmb]; rfl⟩
    have hcond1 : ¬(w = 0 ∨ 64 < w) := by omega
    simp only [int_info, hmb, hsb, Option.getD_some, ite_self]
    rw [if_neg hcond1, if_pos hw2]
  · intro v mb hmb
    obtain ⟨sb, hsb⟩ : ∃ sb, std_bits v = some sb :=
      ⟨_, by rw [std_bits, hmb]; rfl⟩
    simp only [int_info, hmb, hsb, Option.getD_some, ite_self]
    simp

/-- Witness for C9 at `value = 300`, user width 3 (300 needs 9 bits). -/
theorem claim_C9_int_info_insufficient_witness :
    min_bits 300 = some 9 ∧
    int_info 300 (some 3) = some (IntInfoOut.errInsufficient 300 9) :=
  ⟨by decide,
    claim_C9_int_info_insufficient.1 300 9 3 (by decide) (by decide)
      (by decide) (by decide) (by decide)⟩

/-- Counterexample for C9 as frozen: at user width 0 (which is less than
every `min_bits` value) the code reports UnsupportedWidth, not the
InsufficientWidth error the claim promises. -/
theorem claim_C9_int_info_insufficient_cex :
    min_bits 5 = some 3 ∧
    int_info 5 (some 0) = some IntInfoOut.errUnsupported ∧
    int_info 5 (some 0) ≠ some (IntInfoOut.errInsufficient 5 3) := by
  refine ⟨by decide, by decide, by decide⟩

end Intspector
